import Mathlib

set_option maxRecDepth 8000
set_option synthInstance.maxHeartbeats 1000000

namespace CricCore

/-- Character strings are modelled as lists of characters so that every string
operation of the scraper reduces inside the kernel. -/
abbrev Str := List Char

/-- Coerce a Lean string literal to the character-list representation. -/
def str (s : String) : Str := s.data

/-- Python whitespace stripping on the left (lstrip with default argument). -/
def lstripWs (s : Str) : Str := s.dropWhile Char.isWhitespace

/-- Python whitespace stripping on the right (rstrip with default argument). -/
def rstripWs (s : Str) : Str := (s.reverse.dropWhile Char.isWhitespace).reverse

/-- Python str.strip with default argument: drop leading and trailing whitespace. -/
def pyStrip (s : Str) : Str := rstripWs (lstripWs s)

/-- Lower-case a whole string, character by character (Python str.lower on ASCII). -/
def toLowerStr (s : Str) : Str := s.map Char.toLower

/-- Python substring membership test, needle in hay. -/
def containsSub (needle : Str) : Str → Bool
  | [] => needle.isPrefixOf []
  | c :: rest => needle.isPrefixOf (c :: rest) || containsSub needle rest

/-- Python str.replace of every comma by a dash (both are single characters). -/
def replaceCommas (s : Str) : Str := s.map (fun c => if c = ',' then '-' else c)

/-- Python str.replace with count 1 and empty replacement: remove the first
occurrence of the needle; an empty needle leaves the string unchanged because
the replacement is also empty. -/
def removeFirst (needle : Str) : Str → Str
  | [] => []
  | c :: rest =>
    if needle ≠ [] ∧ needle.isPrefixOf (c :: rest) then (c :: rest).drop needle.length
    else c :: removeFirst needle rest

/-- Python sep.join of a list of fragments. -/
def joinDelim (delim : Str) : List Str → Str
  | [] => []
  | [x] => x
  | x :: y :: rest => x ++ delim ++ joinDelim delim (y :: rest)

/-- Fuel-indexed worker for Python str.split with a non-empty separator: scan
left to right, cutting at every non-overlapping occurrence of the separator.
The fuel dominates the length of the scanned string, so the zero-fuel arm is
never reached from pySplit. -/
def splitOnAux (sep : Str) : Nat → Str → Str → List Str
  | 0, s, acc => [acc ++ s]
  | Nat.succ fuel, s, acc =>
    if sep.isPrefixOf s then acc :: splitOnAux sep fuel (s.drop sep.length) []
    else
      match s with
      | [] => [acc]
      | c :: rest => splitOnAux sep fuel rest (acc ++ [c])

/-- Python str.split with an explicit non-empty separator. -/
def pySplit (sep : Str) (s : Str) : List Str := splitOnAux sep (s.length + 1) s []

end CricCore

namespace CricCore

/- Column Normalizer (CommentaryParser._normalize_columns). -/

/-- Number of rows of the batch having width k (the value column_counts[k]). -/
def countLen (data : List (List Str)) (k : Nat) : Nat :=
  data.countP (fun row => row.length == k)

/-- Insertion into the ordered key list of a Python dict: a new key is appended
at the end, an existing key keeps its position. -/
def insertKey (ks : List Nat) (k : Nat) : List Nat :=
  if k ∈ ks then ks else ks ++ [k]

/-- Keys of column_counts in Python dict insertion order: widths in order of
first appearance in the batch. -/
def keyOrder (data : List (List Str)) : List Nat :=
  data.foldl (fun ks row => insertKey ks row.length) []

/-- Python max(column_counts, key=column_counts.get): the first key, in dict
order, whose count is maximal (max keeps the current candidate on ties). -/
def target_columns (data : List (List Str)) : Nat :=
  match keyOrder data with
  | [] => 0
  | k :: ks => ks.foldl (fun best k2 => if countLen data best < countLen data k2 then k2 else best) k

/-- Body of the per-row normalization loop: keep a row of the target width, pad
a shorter row with empty strings inserted before its last field (an empty row
becomes all empty fields), truncate a longer row. -/
def normalizeRow (target : Nat) (row : List Str) : List Str :=
  if row.length = target then row
  else if row.length < target then
    match row.getLast? with
    | some last => row.dropLast ++ List.replicate (target - row.length) [] ++ [last]
    | none => List.replicate target []
  else row.take target

/-- CommentaryParser._normalize_columns: empty input returns empty, otherwise
every row is normalized to the most frequent width of the batch. -/
def normalize_columns (data : List (List Str)) : List (List Str) :=
  if data = [] then [] else data.map (normalizeRow (target_columns data))

example : pyStrip (str "  ab c  ") = str "ab c" := by decide
example : pySplit (str " to ") (str "Bumrah to Kohli, no run") = [str "Bumrah", str "Kohli, no run"] := by decide
example : target_columns [[str "a", str "b"], [str "x", str "y", str "z"], [str "p", str "q", str "r"]] = 3 := by decide
example : normalize_columns [[str "a", str "b"], [str "x", str "y", str "z"]] = [[str "a", str "b"], [str "x", str "y"]] := by decide

/- CommentaryParser.extract_bowler_batsman. -/

/-- CommentaryParser.extract_bowler_batsman: an empty event text yields two
nulls; otherwise the event is split on the literal separator, fewer than two
segments yield two nulls, and otherwise the first segment stripped is the
bowler and the second segment, cut at its first comma when it has one and then
stripped, is the batsman. -/
def extract_bowler_batsman (event : Str) : Option Str × Option Str :=
  if event = [] then (none, none)
  else
    match pySplit (str " to ") event with
    | p0 :: p1 :: _ =>
      (some (pyStrip p0),
       some (if p1.contains ',' then pyStrip ((pySplit [','] p1).headD p1) else pyStrip p1))
    | _ => (none, none)

example : extract_bowler_batsman (str "Bumrah to Kohli, no run") = (some (str "Bumrah"), some (str "Kohli")) := by decide
example : extract_bowler_batsman (str "no run") = (none, none) := by decide

/- CommentaryParser._clean_photo_markers. -/

/-- Python test current and 'see all photo' in current.lower() identifying a
photo-marker field. -/
def isPhotoMarker (s : Str) : Bool :=
  !s.isEmpty && containsSub (str "see all photo") (toLowerStr s)

/-- CommentaryParser._clean_photo_markers: scan the field list left to right;
on a photo marker drop the marker together with an immediately following
empty or whitespace-only field, or the marker alone when the next field has
content or the marker is last; keep every other field. -/
def clean_photo_markers : List Str → List Str
  | [] => []
  | [x] => if isPhotoMarker x then [] else [x]
  | x :: y :: rest =>
    if isPhotoMarker x then
      if y.isEmpty || (pyStrip y).isEmpty then clean_photo_markers rest
      else clean_photo_markers (y :: rest)
    else x :: clean_photo_markers (y :: rest)

example : clean_photo_markers [str "a", str "See all photos", str " ", str "b"] = [str "a", str "b"] := by decide
example : clean_photo_markers [str "a", str "See all photos", str "b"] = [str "a", str "b"] := by decide

/- CommentaryParser.to_dataframe. -/

/-- Final relational shape of one commentary row; cells are optional because a
ragged row read through a pandas frame yields missing values. -/
structure CommentaryRecord where
  match_ball_number : Option Str
  event : Option Str
  ball : Option Str
  commentary : Option Str
  bowler : Option Str
  batsman : Option Str
  deriving DecidableEq, Repr

/-- Cell of a row in the pandas frame built from a list of rows: the value at
that column index, missing (NaN) when the row is shorter. -/
def cell (row : List Str) (i : Nat) : Option Str := row.get? i

/-- Number of columns of the pandas frame built from the batch: the maximal
row length. -/
def num_columns (data : List (List Str)) : Nat :=
  data.foldl (fun m r => Nat.max m r.length) 0

/-- Pandas test pd.isna(x) or x == "" used on the Commentary cell. -/
def isEmptyCell (c : Option Str) : Bool :=
  match c with
  | none => true
  | some s => s.isEmpty

/-- Row.apply of extract_bowler_batsman on the Event column: a missing event is
pd.isna and yields two nulls. -/
def extract_bowler_batsman_cell (c : Option Str) : Option Str × Option Str :=
  match c with
  | none => (none, none)
  | some s => extract_bowler_batsman s

/-- Column mapping of the six-column format: drop Runs_Wicket and Extra, keep
the rest, and derive bowler and batsman from the Event column. -/
def mkRecord6 (row : List Str) : CommentaryRecord :=
  let bb := extract_bowler_batsman_cell (cell row 1)
  { match_ball_number := cell row 0
    event := cell row 1
    ball := cell row 2
    commentary := cell row 5
    bowler := bb.1
    batsman := bb.2 }

/-- Column mapping of the seven-column format: fill an empty Commentary cell
from Extra, drop Runs_Wicket, Photo and Extra, and derive bowler and batsman
from the Event column. -/
def mkRecord7 (row : List Str) : CommentaryRecord :=
  let bb := extract_bowler_batsman_cell (cell row 1)
  { match_ball_number := cell row 0
    event := cell row 1
    ball := cell row 2
    commentary := if isEmptyCell (cell row 6) then cell row 5 else cell row 6
    bowler := bb.1
    batsman := bb.2 }

/-- CommentaryParser.to_dataframe: empty input gives an empty table; a frame of
six or seven columns is mapped to records; any other column count is an
extraction failure and gives an empty table. -/
def to_dataframe (parsed_data : List (List Str)) : List CommentaryRecord :=
  if parsed_data = [] then []
  else
    let n := num_columns parsed_data
    if n = 6 then parsed_data.map mkRecord6
    else if n = 7 then parsed_data.map mkRecord7
    else []

/- CommentaryParser.parse_commentary, commentary-assembly part (lines 61 to 89). -/

/-- Per-block texts handed to the commentary-assembly step of parse_commentary:
the header text, the filtered span texts, the stripped texts of the paragraph
and emphasis sub-elements, and the block's full visible text. -/
structure BlockTexts where
  header_text : Str
  span_texts : List Str
  p_texts_raw : List Str
  strong_texts_raw : List Str
  all_block_text : Str
  deriving DecidableEq, Repr

/-- Commentary joined from the paragraph and emphasis fragments, each with its
commas replaced by dashes, glued with the reserved delimiter; empty when there
are no fragments. -/
def joinedParts (b : BlockTexts) : Str :=
  let parts := b.p_texts_raw.map replaceCommas ++ b.strong_texts_raw.map replaceCommas
  if parts = [] then [] else joinDelim (str "#**#") parts

/-- The fallback branch of parse_commentary is taken exactly when the joined
paragraph and emphasis commentary strips to the empty string. -/
def usesFallback (b : BlockTexts) : Bool := (pyStrip (joinedParts b)).isEmpty

/-- Commentary text of one block as assembled by parse_commentary: the joined
paragraph and emphasis fragments, or, when those strip to nothing, the block's
full text with the header and each span text removed once and the remainder
stripped (kept only when non-empty). -/
def assembleCommentary (b : BlockTexts) : Str :=
  if usesFallback b then
    let r1 := if b.header_text ≠ [] then removeFirst b.header_text b.all_block_text else b.all_block_text
    let r2 := b.span_texts.foldl (fun acc sp => removeFirst sp acc) r1
    let remaining := pyStrip r2
    if remaining ≠ [] then remaining else joinedParts b
  else joinedParts b

/- MetadataExtractor.extract_metadata. -/

/-- Value stored in the metadata mapping: a scraped string or the injected
numeric match identifier. -/
inductive MetaVal where
  | s (t : Str)
  | num (n : Nat)
  deriving DecidableEq, Repr

/-- Python key in dict test. -/
def dictContains (d : List (Str × MetaVal)) (k : Str) : Bool :=
  d.any (fun kv => kv.1 == k)

/-- Python dict assignment d[k] = v: an existing key keeps its position and
gets the new value, a new key is appended at the end. -/
def dictSet (d : List (Str × MetaVal)) (k : Str) (v : MetaVal) : List (Str × MetaVal) :=
  if d.any (fun kv => kv.1 == k) then d.map (fun kv => if kv.1 == k then (k, v) else kv)
  else d ++ [(k, v)]

/-- Python dict lookup d.get(k). -/
def dictGet (d : List (Str × MetaVal)) (k : Str) : Option MetaVal :=
  (d.find? (fun kv => kv.1 == k)).map Prod.snd

/-- Body of the row loop of extract_metadata, one details-panel row given as
its span texts: two or more spans make a key/value pair kept when both are
non-empty (value parts space-joined then stripped); a single span sets Venue
when none is present; an empty row is skipped. -/
def processMetadataRow (md : List (Str × MetaVal)) (spans : List Str) : List (Str × MetaVal) :=
  match spans with
  | [] => md
  | [t] => if t ≠ [] ∧ dictContains md (str "Venue") = false then dictSet md (str "Venue") (MetaVal.s t) else md
  | key :: v1 :: vs =>
    let value := pyStrip (joinDelim [' '] (v1 :: vs))
    if key ≠ [] ∧ value ≠ [] then dictSet md key (MetaVal.s value) else md

/-- MetadataExtractor.extract_metadata with the details-panel rows abstracted
as their lists of span texts (the BeautifulSoup searches are the only part not
reproduced): a missing panel yields the mapping holding only MatchID; otherwise
every row is folded into the mapping and MatchID is injected last. -/
def extract_metadata (rows : List (List Str)) (match_id : Nat) : List (Str × MetaVal) :=
  if rows = [] then [(str "MatchID", MetaVal.num match_id)]
  else dictSet (rows.foldl processMetadataRow []) (str "MatchID") (MetaVal.num match_id)

/- MetadataExtractor._clean_team_name and _extract_team_name_from_table. -/

/-- Model of re.sub of a trailing optional-whitespace Innings optional-whitespace
pattern, case-insensitive: when the string without its trailing whitespace ends
in the word, that word and the whitespace run before it are removed; otherwise
the string is unchanged. -/
def subTrailingInnings (s : Str) : Str :=
  let r := rstripWs s
  if (str "innings").isSuffixOf (toLowerStr r) then rstripWs (r.take (r.length - 7)) else s

/-- Consume an ordinal suffix st, nd, rd or th, case-insensitive, at the head
of the string. -/
def dropOrdinal (s : Str) : Option Str :=
  match s with
  | a :: b :: rest =>
    let ab := toLowerStr [a, b]
    if ab = str "st" ∨ ab = str "nd" ∨ ab = str "rd" ∨ ab = str "th" then some rest else none
  | _ => none

/-- Tail of the leading-innings pattern after the digits and optional ordinal:
one or more whitespace characters, the word Innings case-insensitive, then any
further whitespace, all consumed. -/
def dropInningsWord (t : Str) : Option Str :=
  let ws := t.takeWhile Char.isWhitespace
  let t2 := t.dropWhile Char.isWhitespace
  if ws = [] then none
  else if (str "innings").isPrefixOf (toLowerStr t2) then some (lstripWs (t2.drop 7)) else none

/-- Model of re.sub of the anchored leading pattern digits, optional ordinal
suffix, whitespace, Innings, trailing whitespace, case-insensitive: the match
is removed when present (trying the ordinal first and backtracking without it),
otherwise the string is unchanged. -/
def subLeadingInnings (s : Str) : Str :=
  let ds := s.takeWhile Char.isDigit
  let rest := s.dropWhile Char.isDigit
  if ds = [] then s
  else
    match dropOrdinal rest with
    | some r2 =>
      match dropInningsWord r2 with
      | some out => out
      | none => (dropInningsWord rest).getD s
    | none => (dropInningsWord rest).getD s

/-- Worker for whitespace collapapsing, carrying whether the previous character
was part of a whitespace run already replaced. -/
def collapseWsAux : Bool → Str → Str
  | _, [] => []
  | prevWs, c :: rest =>
    if c.isWhitespace then
      if prevWs then collapseWsAux true rest
      else ' ' :: collapseWsAux true rest
    else c :: collapseWsAux false rest

/-- Model of re.sub replacing every maximal whitespace run by a single space. -/
def collapseWs (s : Str) : Str := collapseWsAux false s

/-- MetadataExtractor._clean_team_name: empty input gives null; otherwise strip
the trailing and leading innings phrases, collapse whitespace, strip, and keep
the result only when longer than 2 characters. -/
def clean_team_name (team_name : Str) : Option Str :=
  if team_name = [] then none
  else
    let t1 := subTrailingInnings team_name
    let t2 := subLeadingInnings t1
    let t3 := collapseWs t2
    let cleaned := pyStrip t3
    if cleaned ≠ [] ∧ 2 < cleaned.length then some cleaned else none

example : clean_team_name (str "2nd Innings  India  Innings") = some (str "India") := by decide
example : clean_team_name (str "ab") = none := by decide

/-- DOM search results feeding the team-name cascade, abstracted as the span
texts each strategy finds: the text found at each of the ancestor levels walked
by strategy one (missing when the container or span is absent at that level),
then the candidates of the two find_previous strategies. -/
structure TeamNameDom where
  ancestorSpanTexts : List (Option Str)
  previousSpanText : Option Str
  previousDivSpanText : Option Str

/-- Candidate raw team names in cascade order: at most ten ancestor levels are
walked, and the two backward searches follow. -/
def teamNameCandidates (dom : TeamNameDom) : List Str :=
  (dom.ancestorSpanTexts.take 10).filterMap id
    ++ dom.previousSpanText.toList ++ dom.previousDivSpanText.toList

/-- First candidate whose cleaned name is accepted; the cascade continues past
candidates the cleaner rejects. -/
def firstCleaned : List Str → Option Str
  | [] => none
  | c :: rest =>
    match clean_team_name c with
    | some n => some n
    | none => firstCleaned rest

/-- MetadataExtractor._extract_team_name_from_table over the abstracted DOM
search results: the first cleaned candidate wins, and when every strategy fails
the placeholder Team followed by the innings ordinal is synthesized. -/
def extract_team_name_from_table (dom : TeamNameDom) (innings_number : Nat) : Str :=
  match firstCleaned (teamNameCandidates dom) with
  | some name => name
  | none => str "Team " ++ Nat.toDigits 10 innings_number

/- MetadataExtractor.extract_player_names, deduplication step (lines 143 to 162). -/

/-- One extracted player entry with the columns the roster frame carries. -/
structure PlayerRec where
  matchid : Nat
  innings : Str
  team : Str
  player_name : Str
  batted : Bool
  batting_position : Option Nat
  player_type : Str
  deriving DecidableEq, Repr

/-- Priority assigned by the type_priority mapping: impact sorts before
regular; any other type gets the missing-value priority pandas sorts last. -/
def typePriority (p : PlayerRec) : Nat :=
  if p.player_type = str "impact" then 1 else if p.player_type = str "regular" then 2 else 3

/-- Deduplication key of the roster: the matchid and player_name pair. -/
def playerKey (p : PlayerRec) : Nat × Str := (p.matchid, p.player_name)

/-- Frame sorted by the priority column ascending: all priority-one records
precede all priority-two records, which precede the rest. -/
def sortByPriority (l : List PlayerRec) : List PlayerRec :=
  l.filter (fun p => typePriority p == 1) ++ l.filter (fun p => typePriority p == 2)
    ++ l.filter (fun p => typePriority p == 3)

/-- Pandas drop_duplicates on the key columns with keep first: walk the frame
keeping the first record of each key. -/
def drop_duplicates (seen : List (Nat × Str)) : List PlayerRec → List PlayerRec
  | [] => []
  | p :: rest =>
    if playerKey p ∈ seen then drop_duplicates seen rest
    else p :: drop_duplicates (playerKey p :: seen) rest

/-- Merge step of extract_player_names: sort the assembled entries by type
priority and keep the first record per matchid and player_name pair. -/
def dedupe_players (l : List PlayerRec) : List PlayerRec :=
  drop_duplicates [] (sortByPriority l)

/- Helper lemmas about the Column Normalizer. -/

theorem normalizeRow_length (target : Nat) (row : List Str) :
    (normalizeRow target row).length = target := by
  unfold normalizeRow
  by_cases h1 : row.length = target
  · simp [h1]
  · simp only [h1, if_false]
    by_cases h2 : row.length < target
    · simp only [h2, if_true]
      cases hl : row.getLast? with
      | none =>
        have hrow : row = [] := List.getLast?_eq_none_iff.mp hl
        subst hrow
        simp
      | some last =>
        have hrow : row ≠ [] := by
          intro h
          subst h
          simp at hl
        have hpos : 0 < row.length := List.length_pos.mpr hrow
        simp [List.length_append, List.length_dropLast, List.length_replicate]
        omega
    · simp only [h2, if_false, List.length_take]
      omega

theorem mem_insertKey_self (ks : List Nat) (k : Nat) : k ∈ insertKey ks k := by
  unfold insertKey
  by_cases h : k ∈ ks
  · simp [h]
  · simp [h]

theorem mem_insertKey_of_mem (ks : List Nat) (k x : Nat) (h : x ∈ ks) : x ∈ insertKey ks k := by
  unfold insertKey
  by_cases hk : k ∈ ks
  · simp [hk, h]
  · simp [hk, h]

theorem foldl_insertKey_mono (l : List (List Str)) :
    ∀ (init : List Nat) (x : Nat), x ∈ init →
      x ∈ l.foldl (fun ks row => insertKey ks row.length) init := by
  induction l with
  | nil => intro init x hx; simpa using hx
  | cons r rest ih =>
    intro init x hx
    exact ih (insertKey init r.length) x (mem_insertKey_of_mem init r.length x hx)

theorem length_mem_foldl_insertKey (l : List (List Str)) :
    ∀ (init : List Nat) (row : List Str), row ∈ l →
      row.length ∈ l.foldl (fun ks row => insertKey ks row.length) init := by
  induction l with
  | nil => intro init row h; simp at h
  | cons r rest ih =>
    intro init row h
    rcases List.mem_cons.mp h with h1 | h2
    · subst h1
      exact foldl_insertKey_mono rest (insertKey init row.length) row.length
        (mem_insertKey_self init row.length)
    · exact ih (insertKey init r.length) row h2

theorem length_mem_keyOrder (data : List (List Str)) (row : List Str) (h : row ∈ data) :
    row.length ∈ keyOrder data :=
  length_mem_foldl_insertKey data [] row h

theorem foldl_argmax_le (f : Nat → Nat) :
    ∀ (ks : List Nat) (k j : Nat), j ∈ k :: ks →
      f j ≤ f (ks.foldl (fun best k2 => if f best < f k2 then k2 else best) k) := by
  intro ks
  induction ks with
  | nil =>
    intro k j hj
    rcases List.mem_cons.mp hj with h | h
    · subst h; simp
    · simp at h
  | cons k2 ks ih =>
    intro k j hj
    have hstep : List.foldl (fun best k2 => if f best < f k2 then k2 else best) k (k2 :: ks)
        = List.foldl (fun best k2 => if f best < f k2 then k2 else best)
            (if f k < f k2 then k2 else k) ks := rfl
    rw [hstep]
    rcases List.mem_cons.mp hj with h | h
    · subst h
      have hk : f j ≤ f (if f j < f k2 then k2 else j) := by
        by_cases hc : f j < f k2
        · simp [hc]; omega
        · simp [hc]
      exact le_trans hk (ih (if f j < f k2 then k2 else j) (if f j < f k2 then k2 else j)
        (List.mem_cons_self _ _))
    · rcases List.mem_cons.mp h with h2 | h2
      · subst h2
        have hk : f j ≤ f (if f k < f j then j else k) := by
          by_cases hc : f k < f j
          · simp [hc]
          · simp [hc]; omega
        exact le_trans hk (ih (if f k < f j then j else k) (if f k < f j then j else k)
          (List.mem_cons_self _ _))
      · exact ih (if f k < f k2 then k2 else k) j (List.mem_cons_of_mem _ h2)

theorem target_columns_count_max (data : List (List Str)) (hne : data ≠ []) (k : Nat) :
    countLen data k ≤ countLen data (target_columns data) := by
  rcases Nat.eq_zero_or_pos (countLen data k) with h0 | hpos
  · rw [h0]; exact Nat.zero_le _
  · have hex : ∃ row ∈ data, (row.length == k) = true := List.countP_pos.mp hpos
    obtain ⟨row, hrow, hbeq⟩ := hex
    have hk : row.length = k := by simpa using hbeq
    have hmem : k ∈ keyOrder data := hk ▸ length_mem_keyOrder data row hrow
    rcases hko : keyOrder data with _ | ⟨k0, ktail⟩
    · rw [hko] at hmem; simp at hmem
    · have : target_columns data
          = ktail.foldl (fun best k2 => if countLen data best < countLen data k2 then k2 else best) k0 := by
        unfold target_columns
        rw [hko]
      rw [this]
      exact foldl_argmax_le (countLen data) ktail k0 k (hko ▸ hmem)

/-- C1: for every non-empty batch, the Column Normalizer returns rows of one
uniform length, and that length is a width of maximal frequency in the batch. -/
theorem c1_normalize_columns_uniform_majority (data : List (List Str)) (hne : data ≠ []) :
    (∀ row ∈ normalize_columns data, row.length = target_columns data) ∧
    (∀ k : Nat, countLen data k ≤ countLen data (target_columns data)) := by
  constructor
  · intro row hrow
    unfold normalize_columns at hrow
    rw [if_neg hne] at hrow
    obtain ⟨r0, _, hr0⟩ := List.mem_map.mp hrow
    rw [← hr0]
    exact normalizeRow_length (target_columns data) r0
  · intro k
    exact target_columns_count_max data hne k

/-- C1 witness: the uniform-length and majority-width facts evaluated on a
concrete three-row batch. -/
theorem c1_witness :
    (∀ row ∈ normalize_columns [[str "a"], [str "b", str "c"], [str "d", str "e"]],
      row.length = target_columns [[str "a"], [str "b", str "c"], [str "d", str "e"]]) ∧
    (∀ k : Nat, countLen [[str "a"], [str "b", str "c"], [str "d", str "e"]] k
      ≤ countLen [[str "a"], [str "b", str "c"], [str "d", str "e"]]
          (target_columns [[str "a"], [str "b", str "c"], [str "d", str "e"]])) :=
  c1_normalize_columns_uniform_majority
    [[str "a"], [str "b", str "c"], [str "d", str "e"]] (by decide)

/-- C2: a non-empty row shorter than the target width is padded by inserting
exactly target minus actual empty fields immediately before its last field, so
the padded row ends in the original row's last field. -/
theorem c2_pad_before_last (data : List (List Str)) (i : Nat) (row : List Str)
    (hget : data.get? i = some row) (hne : row ≠ [])
    (hlt : row.length < target_columns data) :
    ∃ last, row.getLast? = some last ∧
      (normalize_columns data).get? i
        = some (row.dropLast ++ List.replicate (target_columns data - row.length) [] ++ [last]) ∧
      (row.dropLast ++ List.replicate (target_columns data - row.length) [] ++ [last]).getLast?
        = row.getLast? := by
  have hdata : data ≠ [] := by
    intro h
    subst h
    simp at hget
  cases hl : row.getLast? with
  | none => exact absurd (List.getLast?_eq_none_iff.mp hl) hne
  | some last =>
    refine ⟨last, rfl, ?_, ?_⟩
    · unfold normalize_columns
      rw [if_neg hdata, List.get?_map, hget]
      have hrow : normalizeRow (target_columns data) row
          = row.dropLast ++ List.replicate (target_columns data - row.length) [] ++ [last] := by
        unfold normalizeRow
        rw [if_neg (Nat.ne_of_lt hlt), if_pos hlt, hl]
      rw [Option.map_some', hrow]
    · exact List.getLast?_concat _

/-- C2 witness: the padding fact evaluated on a concrete batch whose first row
is one field short of the majority width. -/
theorem c2_witness :
    ∃ last, (str "x" :: [str "y"]).getLast? = some last ∧
      (normalize_columns [[str "x", str "y"], [str "a", str "b", str "c"], [str "d", str "e", str "f"]]).get? 0
        = some ([str "x", str "y"].dropLast
            ++ List.replicate (target_columns [[str "x", str "y"], [str "a", str "b", str "c"], [str "d", str "e", str "f"]] - [str "x", str "y"].length) []
            ++ [last]) ∧
      ([str "x", str "y"].dropLast
            ++ List.replicate (target_columns [[str "x", str "y"], [str "a", str "b", str "c"], [str "d", str "e", str "f"]] - [str "x", str "y"].length) []
            ++ [last]).getLast? = (str "x" :: [str "y"]).getLast? :=
  c2_pad_before_last [[str "x", str "y"], [str "a", str "b", str "c"], [str "d", str "e", str "f"]]
    0 [str "x", str "y"] (by decide) (by decide) (by decide)

/-- Concrete batch of C3: three rows of width five and two rows of width six. -/
def c3batch : List (List Str) :=
  [[str "0", str "a", str "b", str "c", str "d"],
   [str "1", str "a", str "b", str "c", str "d"],
   [str "2", str "a", str "b", str "c", str "d"],
   [str "3", str "a", str "b", str "c", str "d", str "e"],
   [str "4", str "a", str "b", str "c", str "d", str "e"]]

/-- C3 counterexample: on a batch of three width-five rows and two width-six
rows the normalizer's target width is not six. -/
theorem c3_counterexample : target_columns c3batch ≠ 6 := by decide

/-- C3 amended: on that batch the target width is five, the most frequent
width; the width-five rows are unchanged and each width-six row is truncated
to its first five fields, so no empty field is inserted anywhere. -/
theorem c3_amended_majority_five :
    target_columns c3batch = 5 ∧
    normalize_columns c3batch =
      [[str "0", str "a", str "b", str "c", str "d"],
       [str "1", str "a", str "b", str "c", str "d"],
       [str "2", str "a", str "b", str "c", str "d"],
       [str "3", str "a", str "b", str "c", str "d"],
       [str "4", str "a", str "b", str "c", str "d"]] := by
  constructor
  · decide
  · decide

/- Helper lemma about the number of columns of a uniform batch. -/

theorem foldl_max_uniform (w : Nat) :
    ∀ (data : List (List Str)) (acc : Nat), data ≠ [] → (∀ r ∈ data, r.length = w) →
      data.foldl (fun m r => Nat.max m r.length) acc = Nat.max acc w := by
  intro data
  induction data with
  | nil => intro acc h _; exact absurd rfl h
  | cons r rest ih =>
    intro acc _ hw
    have hr : r.length = w := hw r (List.mem_cons_self _ _)
    cases rest with
    | nil => simp [List.foldl, hr]
    | cons r2 rest2 =>
      have h2 := ih (Nat.max acc r.length) (by simp)
        (fun x hx => hw x (List.mem_cons_of_mem _ hx))
      calc List.foldl (fun m r => Nat.max m r.length) acc (r :: r2 :: rest2)
          = List.foldl (fun m r => Nat.max m r.length) (Nat.max acc r.length) (r2 :: rest2) := rfl
        _ = Nat.max (Nat.max acc r.length) w := h2
        _ = Nat.max acc w := by
            rw [hr]
            show max (max acc w) w = max acc w
            rw [max_assoc, max_self]

theorem num_columns_uniform (data : List (List Str)) (w : Nat) (hne : data ≠ [])
    (hw : ∀ r ∈ data, r.length = w) : num_columns data = w := by
  unfold num_columns
  rw [foldl_max_uniform w data 0 hne hw]
  exact Nat.zero_max w

/-- C4: a non-empty batch of uniform width outside six and seven makes
to_dataframe abandon the batch and return the empty table. -/
theorem c4_bad_width_empty_table (data : List (List Str)) (w : Nat) (hne : data ≠ [])
    (hw : ∀ r ∈ data, r.length = w) (h6 : w ≠ 6) (h7 : w ≠ 7) :
    to_dataframe data = [] := by
  have hn : num_columns data = w := num_columns_uniform data w hne hw
  unfold to_dataframe
  rw [if_neg hne]
  simp only [hn, h6, h7, if_false]

/-- C4 witness: a width-five batch is abandoned as an empty table. -/
theorem c4_witness :
    to_dataframe [[str "0", str "a", str "b", str "c", str "d"]] = [] :=
  c4_bad_width_empty_table [[str "0", str "a", str "b", str "c", str "d"]] 5
    (by decide) (by decide) (by decide) (by decide)

/- Helper lemmas about the photo-marker cleanup. -/

theorem clean_photo_markers_all_clean (l : List Str) :
    ∀ x ∈ clean_photo_markers l, isPhotoMarker x = false := by
  induction l using clean_photo_markers.induct <;>
    intro x hx <;> simp_all [clean_photo_markers] <;>
    rcases hx with h | h <;> simp_all

theorem clean_photo_markers_fixed (l : List Str)
    (h : ∀ x ∈ l, isPhotoMarker x = false) : clean_photo_markers l = l := by
  induction l with
  | nil => rfl
  | cons x rest ih =>
    have hx : isPhotoMarker x = false := h x (List.mem_cons_self _ _)
    cases rest with
    | nil => simp [clean_photo_markers, hx]
    | cons y rest2 =>
      have ht : ∀ z ∈ y :: rest2, isPhotoMarker z = false :=
        fun z hz => h z (List.mem_cons_of_mem _ hz)
      simp [clean_photo_markers, hx, ih ht]

/-- C6: the photo-marker cleanup is idempotent; applying it to its own output
returns that output unchanged. -/
theorem c6_clean_photo_markers_idempotent (l : List Str) :
    clean_photo_markers (clean_photo_markers l) = clean_photo_markers l :=
  clean_photo_markers_fixed (clean_photo_markers l) (clean_photo_markers_all_clean l)

/- Helper lemmas about the event-text split. -/

theorem splitOnAux_comma_head (fuel : Nat) :
    ∀ (s acc : Str), s.length < fuel →
      (splitOnAux [','] fuel s acc).head? = some (acc ++ s.takeWhile (fun c => c != ',')) := by
  induction fuel with
  | zero => intro s acc h; exact absurd h (Nat.not_lt_zero _)
  | succ fuel ih =>
    intro s acc h
    cases s with
    | nil =>
      simp [splitOnAux, List.isPrefixOf]
    | cons c rest =>
      by_cases hc : c = ','
      · subst hc
        simp [splitOnAux, List.isPrefixOf, List.takeWhile_cons]
      · have hpre : (List.isPrefixOf [','] (c :: rest)) = false := by
          simp [List.isPrefixOf]
          exact fun he => absurd he.symm hc
        have hb : (c != ',') = true := by simpa using hc
        have hstep : splitOnAux [','] (fuel + 1) (c :: rest) acc
            = splitOnAux [','] fuel rest (acc ++ [c]) := by
          simp [splitOnAux, hpre]
        rw [hstep, ih rest (acc ++ [c]) (Nat.lt_of_succ_lt_succ (by simpa using h))]
        rw [List.takeWhile_cons, if_pos hb]
        simp

theorem pySplit_comma_headD (p1 : Str) :
    (pySplit [','] p1).headD p1 = p1.takeWhile (fun c => c != ',') := by
  have h := splitOnAux_comma_head (p1.length + 1) p1 [] (Nat.lt_succ_self _)
  unfold pySplit
  rw [List.headD_eq_head?, h]
  rfl

theorem takeWhile_ne_comma_of_not_mem (p1 : Str) (h : ',' ∉ p1) :
    p1.takeWhile (fun c => c != ',') = p1 := by
  induction p1 with
  | nil => rfl
  | cons c rest ih =>
    have hc : (c != ',') = true := by
      simp only [bne_iff_ne, ne_eq]
      intro he
      exact h (he ▸ List.mem_cons_self c rest)
    rw [List.takeWhile_cons, if_pos hc,
      ih (fun hm => h (List.mem_cons_of_mem _ hm))]

/-- C5: extract_bowler_batsman splits the event on the literal separator, with
two nulls when fewer than two segments result, and otherwise the first segment
stripped as bowler and the second segment up to its first comma, stripped, as
batsman; the two worked examples of the spec evaluate as stated. -/
theorem c5_extract_bowler_batsman_spec :
    (∀ event : Str,
      ((pySplit (str " to ") event).length < 2 → extract_bowler_batsman event = (none, none)) ∧
      (∀ p0 p1 rest, pySplit (str " to ") event = p0 :: p1 :: rest →
        extract_bowler_batsman event
          = (some (pyStrip p0), some (pyStrip (p1.takeWhile (fun c => c != ',')))))) ∧
    extract_bowler_batsman (str "Bumrah to Kohli, no run")
      = (some (str "Bumrah"), some (str "Kohli")) ∧
    extract_bowler_batsman (str "no run") = (none, none) := by
  refine ⟨?_, by decide, by decide⟩
  intro event
  constructor
  · intro hlen
    by_cases hev : event = []
    · simp [extract_bowler_batsman, hev]
    · unfold extract_bowler_batsman
      rw [if_neg hev]
      rcases hsp : pySplit (str " to ") event with _ | ⟨p0, _ | ⟨p1, rest⟩⟩
      · rfl
      · rfl
      · rw [hsp] at hlen
        simp only [List.length_cons] at hlen
        omega
  · intro p0 p1 rest hsp
    have hev : event ≠ [] := by
      intro h
      subst h
      have hnil : pySplit (str " to ") ([] : Str) = [[]] := by decide
      rw [hnil] at hsp
      simp at hsp
    unfold extract_bowler_batsman
    rw [if_neg hev, hsp]
    by_cases hc : p1.contains ',' = true
    · simp only [hc, if_true]
      rw [pySplit_comma_headD]
    · have hm : ',' ∉ p1 := by
        intro hmem
        exact hc (by simpa [List.contains] using hmem)
      have hcf : p1.contains ',' = false := by simpa using hc
      simp only [hcf, Bool.false_eq_true, if_false]
      rw [takeWhile_ne_comma_of_not_mem p1 hm]

/-- C5 witness: the separator-absent case applied at a concrete event text. -/
theorem c5_witness : extract_bowler_batsman (str "no run") = (none, none) :=
  (c5_extract_bowler_batsman_spec.1 (str "no run")).1 (by decide)

/- Helper lemmas about the metadata dictionary. -/

theorem find?_map_set (d : List (Str × MetaVal)) (k : Str) (v : MetaVal)
    (h : d.any (fun kv => kv.1 == k) = true) :
    (d.map (fun kv => if kv.1 == k then (k, v) else kv)).find? (fun kv => kv.1 == k)
      = some (k, v) := by
  induction d with
  | nil => simp at h
  | cons kv rest ih =>
    by_cases hk : (kv.1 == k) = true
    · rw [List.map_cons, if_pos hk]
      exact List.find?_cons_of_pos _ (by simp)
    · have h2 : rest.any (fun kv => kv.1 == k) = true := by
        rw [List.any_cons] at h
        rcases Bool.or_eq_true_iff.mp h with h3 | h3
        · exact absurd h3 hk
        · exact h3
      rw [List.map_cons, if_neg hk,
        @List.find?_cons_of_neg _ (fun kv => kv.1 == k) kv _ hk, ih h2]

theorem dictGet_dictSet (d : List (Str × MetaVal)) (k : Str) (v : MetaVal) :
    dictGet (dictSet d k v) k = some v := by
  unfold dictGet dictSet
  by_cases h : d.any (fun kv => kv.1 == k) = true
  · rw [if_pos h, find?_map_set d k v h]
    rfl
  · rw [if_neg h]
    have hf : d.any (fun kv => kv.1 == k) = false := by
      revert h
      cases d.any (fun kv => kv.1 == k) <;> simp
    have hnone : d.find? (fun kv => kv.1 == k) = none := by
      rw [List.find?_eq_none]
      intro x hx
      exact (List.any_eq_false.mp hf) x hx
    have h1 : List.find? (fun kv => kv.1 == k) [(k, v)] = some (k, v) :=
      List.find?_cons_of_pos _ (by simp)
    rw [List.find?_append, hnone, h1]
    rfl

/-- C9: the mapping extract_metadata returns always carries MatchID equal to
the given match identifier, whatever the panel rows scraped (MatchID is
injected after panel parsing, overriding any scraped key of that name), and a
missing panel yields exactly the singleton MatchID mapping. -/
theorem c9_matchid_injected (rows : List (List Str)) (match_id : Nat) :
    dictGet (extract_metadata rows match_id) (str "MatchID") = some (MetaVal.num match_id) ∧
    (rows = [] → extract_metadata rows match_id = [(str "MatchID", MetaVal.num match_id)]) := by
  constructor
  · unfold extract_metadata
    by_cases h : rows = []
    · rw [if_pos h]
      rfl
    · rw [if_neg h]
      exact dictGet_dictSet _ _ _
  · intro h
    simp [extract_metadata, h]

/-- C9 witness: a panel row scraping its own MatchID key is overridden, and a
missing panel yields the singleton mapping, at concrete inputs. -/
theorem c9_witness :
    dictGet (extract_metadata [[str "MatchID", str "999"]] 7) (str "MatchID")
        = some (MetaVal.num 7) ∧
    extract_metadata [] 7 = [(str "MatchID", MetaVal.num 7)] :=
  ⟨(c9_matchid_injected [[str "MatchID", str "999"]] 7).1,
   (c9_matchid_injected [] 7).2 rfl⟩

/- Helper lemma about the team-name cascade. -/

theorem firstCleaned_eq_none (cands : List Str)
    (h : ∀ c ∈ cands, clean_team_name c = none) : firstCleaned cands = none := by
  induction cands with
  | nil => rfl
  | cons c rest ih =>
    have hc : clean_team_name c = none := h c (List.mem_cons_self _ _)
    unfold firstCleaned
    rw [hc]
    exact ih (fun x hx => h x (List.mem_cons_of_mem _ hx))

/-- C8: when every candidate of the cascade cleans to nothing, the resolver
synthesizes the placeholder name Team followed by the innings ordinal, which
is never empty. -/
theorem c8_team_placeholder (dom : TeamNameDom) (n : Nat)
    (h : ∀ c ∈ teamNameCandidates dom, clean_team_name c = none) :
    extract_team_name_from_table dom n = str "Team " ++ Nat.toDigits 10 n ∧
    extract_team_name_from_table dom n ≠ [] := by
  have heq : extract_team_name_from_table dom n = str "Team " ++ Nat.toDigits 10 n := by
    unfold extract_team_name_from_table
    rw [firstCleaned_eq_none (teamNameCandidates dom) h]
  refine ⟨heq, ?_⟩
  rw [heq]
  intro hnil
  have hlen := congrArg List.length hnil
  rw [List.length_append] at hlen
  have h5 : (str "Team ").length = 5 := by decide
  simp [h5] at hlen

/-- Concrete DOM search results for the C8 witness: every candidate is too
short to survive cleaning. -/
def c8dom : TeamNameDom :=
  { ancestorSpanTexts := [some (str "ab"), none],
    previousSpanText := none,
    previousDivSpanText := some (str "x ") }

/-- C8 witness: the placeholder for ordinal two is the literal Team 2. -/
theorem c8_witness :
    extract_team_name_from_table c8dom 2 = str "Team 2" ∧
    extract_team_name_from_table c8dom 2 ≠ [] := by
  have h := c8_team_placeholder c8dom 2 (by decide)
  exact ⟨h.1.trans (by decide), h.2⟩

/- Helper lemmas about comma replacement in assembled commentary. -/

theorem replaceCommas_no_comma (s : Str) : ',' ∉ replaceCommas s := by
  intro h
  obtain ⟨c, _, he⟩ := List.mem_map.mp h
  by_cases h1 : c = ','
  · simp [h1] at he
  · rw [if_neg h1] at he
    exact h1 he

theorem joinDelim_no_comma (delim : Str) (hd : ',' ∉ delim) :
    ∀ parts : List Str, (∀ p ∈ parts, ',' ∉ p) → ',' ∉ joinDelim delim parts := by
  intro parts
  induction parts with
  | nil => intro _ hm; simp [joinDelim] at hm
  | cons x rest ih =>
    intro h hm
    cases rest with
    | nil => exact h x (List.mem_cons_self _ _) (by simpa [joinDelim] using hm)
    | cons y rest2 =>
      have hstep : joinDelim delim (x :: y :: rest2)
          = x ++ delim ++ joinDelim delim (y :: rest2) := rfl
      rw [hstep] at hm
      rcases List.mem_append.mp hm with h1 | h1
      · rcases List.mem_append.mp h1 with h2 | h2
        · exact h x (List.mem_cons_self _ _) h2
        · exact hd h2
      · exact ih (fun p hp => h p (List.mem_cons_of_mem _ hp)) h1

/-- Concrete commentary block of C10: no paragraph or emphasis text, so the
fallback path assembles the commentary from the block's full text. -/
def c10Block : BlockTexts :=
  { header_text := str "H"
    span_texts := [str "1"]
    p_texts_raw := []
    strong_texts_raw := []
    all_block_text := str "H 1 six runs, huge" }

/-- C10: commentary assembled on the paragraph-and-emphasis path never carries
a comma, while the fallback path keeps the literal commas of the block text,
as the concrete fallback block shows. -/
theorem c10_fallback_keeps_commas :
    (∀ b : BlockTexts, usesFallback b = false → ',' ∉ assembleCommentary b) ∧
    usesFallback c10Block = true ∧
    assembleCommentary c10Block = str "six runs, huge" ∧
    ',' ∈ assembleCommentary c10Block := by
  refine ⟨?_, by decide, by decide, by decide⟩
  intro b hf
  have hres : assembleCommentary b = joinedParts b := by
    unfold assembleCommentary
    rw [hf]
    simp
  rw [hres]
  unfold joinedParts
  by_cases hp : (b.p_texts_raw.map replaceCommas ++ b.strong_texts_raw.map replaceCommas) = []
  · simp [hp]
  · simp only [hp, if_false]
    refine joinDelim_no_comma (str "#**#") (by decide) _ ?_
    intro p hp2
    rcases List.mem_append.mp hp2 with hmm | hmm <;>
      · obtain ⟨q, _, hq⟩ := List.mem_map.mp hmm
        rw [← hq]
        exact replaceCommas_no_comma q

/-- C10 witness: the no-comma fact applied at a concrete block whose paragraph
text contains a comma that the assembly replaces. -/
theorem c10_witness :
    ',' ∉ assembleCommentary
      { header_text := str ""
        span_texts := []
        p_texts_raw := [str "a,b"]
        strong_texts_raw := []
        all_block_text := str "" } :=
  c10_fallback_keeps_commas.1
    { header_text := str ""
      span_texts := []
      p_texts_raw := [str "a,b"]
      strong_texts_raw := []
      all_block_text := str "" } (by decide)

/- Helper lemmas about the roster deduplication. -/

theorem typePriority_eq_one_iff (p : PlayerRec) :
    typePriority p = 1 ↔ p.player_type = str "impact" := by
  unfold typePriority
  by_cases h1 : p.player_type = str "impact"
  · simp [h1]
  · by_cases h2 : p.player_type = str "regular" <;> simp [h1, h2]

theorem typePriority_cases (p : PlayerRec) :
    typePriority p = 1 ∨ typePriority p = 2 ∨ typePriority p = 3 := by
  unfold typePriority
  by_cases h1 : p.player_type = str "impact"
  · simp [h1]
  · by_cases h2 : p.player_type = str "regular"
    · right; left; rw [if_neg h1, if_pos h2]
    · right; right; rw [if_neg h1, if_neg h2]

theorem mem_sortByPriority (l : List PlayerRec) (p : PlayerRec) :
    p ∈ sortByPriority l ↔ p ∈ l := by
  unfold sortByPriority
  constructor
  · intro h
    rcases List.mem_append.mp h with h1 | h1
    · rcases List.mem_append.mp h1 with h2 | h2
      · exact (List.mem_filter.mp h2).1
      · exact (List.mem_filter.mp h2).1
    · exact (List.mem_filter.mp h1).1
  · intro h
    rcases typePriority_cases p with h1 | h1 | h1
    · exact List.mem_append.mpr (Or.inl (List.mem_append.mpr
        (Or.inl (List.mem_filter.mpr ⟨h, by simp [h1]⟩))))
    · exact List.mem_append.mpr (Or.inl (List.mem_append.mpr
        (Or.inr (List.mem_filter.mpr ⟨h, by simp [h1]⟩))))
    · exact List.mem_append.mpr (Or.inr (List.mem_filter.mpr ⟨h, by simp [h1]⟩))

theorem drop_duplicates_key_seen (k : Nat × Str) :
    ∀ (l : List PlayerRec) (seen : List (Nat × Str)), k ∈ seen →
      ∀ q ∈ drop_duplicates seen l, playerKey q ≠ k := by
  intro l
  induction l with
  | nil =>
    intro seen _ q hq
    simp [drop_duplicates] at hq
  | cons p rest ih =>
    intro seen hk q hq
    by_cases hp : playerKey p ∈ seen
    · rw [drop_duplicates, if_pos hp] at hq
      exact ih seen hk q hq
    · rw [drop_duplicates, if_neg hp] at hq
      rcases List.mem_cons.mp hq with h | h
      · subst h
        intro he
        exact hp (he ▸ hk)
      · exact ih (playerKey p :: seen) (List.mem_cons_of_mem _ hk) q h

theorem drop_duplicates_countP (k : Nat × Str) :
    ∀ (l : List PlayerRec) (seen : List (Nat × Str)), k ∉ seen →
      (∃ p ∈ l, playerKey p = k) →
      (drop_duplicates seen l).countP (fun q => playerKey q == k) = 1 := by
  intro l
  induction l with
  | nil =>
    intro seen _ hex
    simp at hex
  | cons p rest ih =>
    intro seen hk hex
    by_cases hp : playerKey p ∈ seen
    · have hpk : playerKey p ≠ k := fun he => hk (he ▸ hp)
      rw [drop_duplicates, if_pos hp]
      apply ih seen hk
      rcases hex with ⟨q, hq, hqk⟩
      rcases List.mem_cons.mp hq with h | h
      · exact absurd (h ▸ hqk) hpk
      · exact ⟨q, h, hqk⟩
    · rw [drop_duplicates, if_neg hp, List.countP_cons]
      by_cases hpk : playerKey p = k
      · have hz : (drop_duplicates (playerKey p :: seen) rest).countP
            (fun q => playerKey q == k) = 0 := by
          rw [List.countP_eq_zero]
          intro q hq
          have hne := drop_duplicates_key_seen k rest (playerKey p :: seen)
            (by rw [hpk]; exact List.mem_cons_self _ _) q hq
          simpa using hne
        rw [hz]
        simp [hpk]
      · have h1 : k ∉ playerKey p :: seen := by
          intro hm
          rcases List.mem_cons.mp hm with h2 | h2
          · exact hpk h2.symm
          · exact hk h2
        have hex2 : ∃ q ∈ rest, playerKey q = k := by
          rcases hex with ⟨q, hq, hqk⟩
          rcases List.mem_cons.mp hq with h2 | h2
          · exact absurd (h2 ▸ hqk) hpk
          · exact ⟨q, h2, hqk⟩
        rw [ih (playerKey p :: seen) h1 hex2]
        simp [hpk]

theorem drop_duplicates_find (k : Nat × Str) :
    ∀ (l : List PlayerRec) (seen : List (Nat × Str)), k ∉ seen →
      ∀ q ∈ drop_duplicates seen l, playerKey q = k →
        l.find? (fun p => playerKey p == k) = some q := by
  intro l
  induction l with
  | nil =>
    intro seen _ q hq
    simp [drop_duplicates] at hq
  | cons p rest ih =>
    intro seen hk q hq hqk
    by_cases hp : playerKey p ∈ seen
    · have hpk : playerKey p ≠ k := fun he => hk (he ▸ hp)
      rw [drop_duplicates, if_pos hp] at hq
      rw [@List.find?_cons_of_neg _ (fun p => playerKey p == k) p _ (by simpa using hpk)]
      exact ih seen hk q hq hqk
    · rw [drop_duplicates, if_neg hp] at hq
      rcases List.mem_cons.mp hq with h | h
      · subst h
        rw [@List.find?_cons_of_pos _ (fun p => playerKey p == k) q _ (by simpa using hqk)]
      · by_cases hpk : playerKey p = k
        · exfalso
          have hne := drop_duplicates_key_seen k rest (playerKey p :: seen)
            (by rw [hpk]; exact List.mem_cons_self _ _) q h
          exact hne hqk
        · rw [@List.find?_cons_of_neg _ (fun p => playerKey p == k) p _ (by simpa using hpk)]
          apply ih (playerKey p :: seen) _ q h hqk
          intro hm
          rcases List.mem_cons.mp hm with h2 | h2
          · exact hpk h2.symm
          · exact hk h2

theorem find?_sortByPriority_impact (l : List PlayerRec) (k : Nat × Str)
    (h : ∃ p ∈ l, playerKey p = k ∧ p.player_type = str "impact") :
    ∀ q, (sortByPriority l).find? (fun p => playerKey p == k) = some q →
      q.player_type = str "impact" := by
  obtain ⟨p, hp, hpk, himp⟩ := h
  have hp1 : typePriority p = 1 := (typePriority_eq_one_iff p).mpr himp
  have hpA : p ∈ l.filter (fun r => typePriority r == 1) :=
    List.mem_filter.mpr ⟨hp, by simp [hp1]⟩
  have hsome : (List.find? (fun r => playerKey r == k)
      (l.filter (fun r => typePriority r == 1))).isSome = true :=
    List.find?_isSome.mpr ⟨p, hpA, by simp [hpk]⟩
  obtain ⟨r, hr⟩ := Option.isSome_iff_exists.mp hsome
  have hrA : r ∈ l.filter (fun r => typePriority r == 1) := List.mem_of_find?_eq_some hr
  have hr1 : typePriority r = 1 := by
    have := (List.mem_filter.mp hrA).2
    simpa using this
  intro q hq
  unfold sortByPriority at hq
  rw [List.append_assoc, List.find?_append, hr] at hq
  have hqr : r = q := by
    have : (some r).or ((l.filter (fun p => typePriority p == 2)
        ++ l.filter (fun p => typePriority p == 3)).find? (fun p => playerKey p == k))
        = some r := rfl
    rw [this] at hq
    exact Option.some.inj hq
  rw [← hqr]
  exact (typePriority_eq_one_iff r).mp hr1

/-- C7: for every key present in the assembled entries, the deduplicated
roster keeps exactly one record with that matchid and player name, and when an
impact-typed entry exists for the key the kept record is impact-typed. -/
theorem c7_dedupe_impact_over_regular (l : List PlayerRec) (m : Nat) (nm : Str)
    (hex : ∃ p ∈ l, playerKey p = (m, nm)) :
    (dedupe_players l).countP (fun q => playerKey q == (m, nm)) = 1 ∧
    ((∃ p ∈ l, playerKey p = (m, nm) ∧ p.player_type = str "impact") →
      ∀ q ∈ dedupe_players l, playerKey q = (m, nm) → q.player_type = str "impact") := by
  constructor
  · obtain ⟨p, hp, hpk⟩ := hex
    exact drop_duplicates_countP (m, nm) (sortByPriority l) [] (by simp)
      ⟨p, (mem_sortByPriority l p).mpr hp, hpk⟩
  · intro himp q hq hqk
    have hfind := drop_duplicates_find (m, nm) (sortByPriority l) [] (by simp) q hq hqk
    obtain ⟨p, hp, hpk, hpt⟩ := himp
    exact find?_sortByPriority_impact l (m, nm) ⟨p, hp, hpk, hpt⟩ q hfind

/-- Concrete regular-typed roster entry of the C7 witness. -/
def smithRegular : PlayerRec :=
  { matchid := 1
    innings := str "innings_1"
    team := str "A"
    player_name := str "Smith"
    batted := true
    batting_position := some 1
    player_type := str "regular" }

/-- Concrete impact-typed roster entry of the C7 witness. -/
def smithImpact : PlayerRec :=
  { matchid := 1
    innings := str "innings_2"
    team := str "B"
    player_name := str "Smith"
    batted := false
    batting_position := none
    player_type := str "impact" }

/-- C7 witness: with one regular and one impact entry for the same pair, the
merged roster keeps exactly one record for the pair and it is impact-typed. -/
theorem c7_witness :
    (dedupe_players [smithRegular, smithImpact]).countP
        (fun q => playerKey q == (1, str "Smith")) = 1 ∧
    ((∃ p ∈ [smithRegular, smithImpact],
        playerKey p = (1, str "Smith") ∧ p.player_type = str "impact") →
      ∀ q ∈ dedupe_players [smithRegular, smithImpact],
        playerKey q = (1, str "Smith") → q.player_type = str "impact") :=
  c7_dedupe_impact_over_regular [smithRegular, smithImpact] 1 (str "Smith") (by decide)

end CricCore
